import Mathlib

/-!
# Verification of the gitversion version-resolution engine

Shallow embedding of the gradle build-system plugin
(`src/plugins/embedded/gradle/gradle-project.ts`) and of the git process
layer (`src/core/git.ts`), with theorems checking the repository's
specification against the code.

Strings manipulated by the git-output parser are modelled as `List Char`
(`Str` below), with executable re-implementations of the JavaScript string
operations the source uses (`split`, `join`, `trim`, `includes`,
`endsWith`), so that the parsing pipeline can be reasoned about by
induction and evaluated by `decide` on concrete inputs.
-/

/-- Equality of `Except` values is decidable when it is on both sides;
needed to evaluate the embedded fallible operations on concrete inputs. -/
instance {ε α : Type} [DecidableEq ε] [DecidableEq α] : DecidableEq (Except ε α) := fun x y =>
  match x, y with
  | .ok a, .ok b =>
      if h : a = b then isTrue (by rw [h]) else isFalse (by intro hc; cases hc; exact h rfl)
  | .error a, .error b =>
      if h : a = b then isTrue (by rw [h]) else isFalse (by intro hc; cases hc; exact h rfl)
  | .ok _, .error _ => isFalse (by intro hc; cases hc)
  | .error _, .ok _ => isFalse (by intro hc; cases hc)

namespace Gitversion

/-- JavaScript strings, modelled as lists of characters. -/
abbrev Str := List Char

/-- The whitespace characters relevant to `String.prototype.trim` for the
ASCII inputs handled here (JS also trims further Unicode space characters;
none of the modelled data contains them). -/
def wsChar (c : Char) : Bool :=
  c = ' ' || c = '\t' || c = '\r' || c = '\n'

/-- `s.trim()`: drop leading whitespace, then drop trailing whitespace. -/
def trimL (s : Str) : Str :=
  ((s.dropWhile wsChar).reverse.dropWhile wsChar).reverse

/-- `s.includes(pat)`: `pat` occurs as a contiguous substring of `s`
(the empty pattern always occurs). -/
def containsL : Str → Str → Bool
  | s, pat =>
    pat.isPrefixOf s ||
      (match s with
       | [] => false
       | _ :: t => containsL t pat)

/-- Fuel-driven worker for `splitOnL`: structurally recursive on the fuel
so that concrete splits evaluate inside the kernel.  One unit of fuel is
spent per character position; `fuel ≥ s.length` is always sufficient
because each step strictly shortens the list when the separator is
non-empty. -/
def splitOnFuel (sep : Str) : Nat → Str → List Str
  | _, [] => [[]]
  | 0, s => [s]
  | fuel + 1, c :: t =>
    if sep ≠ [] ∧ sep.isPrefixOf (c :: t) then
      [] :: splitOnFuel sep fuel ((c :: t).drop sep.length)
    else
      match splitOnFuel sep fuel t with
      | [] => [[c]]
      | hd :: r => (c :: hd) :: r

/-- `s.split(sep)` for a non-empty separator: greedily cut `s` at every
occurrence of `sep`, scanning left to right.  (For `sep = []` the guard
in the worker keeps the function total by never splitting; the source
only ever splits on non-empty separators.) -/
def splitOnL (sep : Str) (s : Str) : List Str :=
  splitOnFuel sep s.length s

/-- `parts.join(sep)`. -/
def joinSep (sep : Str) : List Str → Str
  | [] => []
  | [p] => p
  | p :: q :: r => p ++ sep ++ joinSep sep (q :: r)

/-- A separator token has no nontrivial self-overlap: no proper nonempty
prefix of it is also a suffix of it at the matching offset.  The two
sentinel delimiters are chosen (UUID-grade) to satisfy this, which is what
makes the delimiter protocol unambiguous. -/
def NoSelfOverlap (sep : Str) : Prop :=
  ∀ k, k < sep.length → 0 < k → sep.drop k ≠ sep.take (sep.length - k)

instance (sep : Str) : Decidable (NoSelfOverlap sep) := by
  unfold NoSelfOverlap
  infer_instance

end Gitversion

namespace Gitversion

theorem containsL_nil (pat : Str) : containsL [] pat = pat.isPrefixOf [] := by
  rw [containsL]
  simp

theorem containsL_cons (c : Char) (t pat : Str) :
    containsL (c :: t) pat = (pat.isPrefixOf (c :: t) || containsL t pat) := by
  rw [containsL]

theorem not_isPrefixOf_of_not_containsL {s pat : Str}
    (h : containsL s pat = false) : pat.isPrefixOf s = false := by
  cases s with
  | nil => rw [containsL_nil] at h; exact h
  | cons c t => rw [containsL_cons] at h; exact (Bool.or_eq_false_iff.mp h).1

theorem containsL_of_tail {c : Char} {t pat : Str}
    (h : containsL (c :: t) pat = false) : containsL t pat = false := by
  rw [containsL_cons] at h
  exact (Bool.or_eq_false_iff.mp h).2

/-- Prepending a character that is not the pattern's first character
creates no new occurrence. -/
theorem containsL_cons_of_head_ne {c : Char} {t pat : Str} {p : Char} {pt : Str}
    (hpat : pat = p :: pt) (hne : p ≠ c) :
    containsL (c :: t) pat = containsL t pat := by
  rw [containsL_cons]
  have : pat.isPrefixOf (c :: t) = false := by
    subst hpat
    simp only [List.isPrefixOf_cons₂]
    simp [hne]
  rw [this, Bool.false_or]

theorem splitOnFuel_nil (sep : Str) (fuel : Nat) :
    splitOnFuel sep fuel [] = [[]] := by
  cases fuel <;> rfl

/-- The fuel is irrelevant as long as it covers the length of the list. -/
theorem splitOnFuel_congr {sep : Str} :
    ∀ {f g : Nat} {s : Str}, s.length ≤ f → s.length ≤ g →
      splitOnFuel sep f s = splitOnFuel sep g s := by
  intro f
  induction f with
  | zero =>
    intro g s hf _
    have : s = [] := List.length_eq_zero.mp (Nat.le_zero.mp hf)
    subst this
    rw [splitOnFuel_nil, splitOnFuel_nil]
  | succ f ih =>
    intro g s hf hg
    cases s with
    | nil => rw [splitOnFuel_nil, splitOnFuel_nil]
    | cons c t =>
      cases g with
      | zero => simp at hg
      | succ g =>
        rw [splitOnFuel, splitOnFuel]
        simp only [List.length_cons, Nat.succ_le_succ_iff] at hf hg
        by_cases hcond : sep ≠ [] ∧ sep.isPrefixOf (c :: t)
        · rw [if_pos hcond, if_pos hcond]
          have hlsep : 0 < sep.length := List.length_pos.mpr hcond.1
          have hdl : ((c :: t).drop sep.length).length ≤ f := by
            simp only [List.length_drop, List.length_cons]
            omega
          have hdg : ((c :: t).drop sep.length).length ≤ g := by
            simp only [List.length_drop, List.length_cons]
            omega
          rw [ih hdl hdg]
        · rw [if_neg hcond, if_neg hcond, ih hf hg]

theorem splitOnL_nil (sep : Str) : splitOnL sep [] = [[]] := rfl

/-- Unfolding `splitOnL` when the separator matches at the head. -/
theorem splitOnL_cut {sep s : Str} (hsep : sep ≠ []) (hs : s ≠ [])
    (hpre : sep.isPrefixOf s = true) :
    splitOnL sep s = [] :: splitOnL sep (s.drop sep.length) := by
  obtain ⟨c, t, rfl⟩ : ∃ c t, s = c :: t := by
    cases s with
    | nil => cases hs rfl
    | cons c t => exact ⟨c, t, rfl⟩
  rw [splitOnL, List.length_cons, splitOnFuel, if_pos ⟨hsep, hpre⟩]
  have hlsep : 0 < sep.length := List.length_pos.mpr hsep
  have hle : ((c :: t).drop sep.length).length ≤ t.length := by
    simp only [List.length_drop, List.length_cons]
    omega
  rw [splitOnL]
  rw [splitOnFuel_congr hle (Nat.le_refl _)]

/-- Unfolding `splitOnL` when the separator does not match at the head. -/
theorem splitOnL_cons_noMatch {sep : Str} (c : Char) (t : Str)
    (hpre : sep.isPrefixOf (c :: t) = false) :
    splitOnL sep (c :: t) =
      match splitOnL sep t with
      | [] => [[c]]
      | hd :: r => (c :: hd) :: r := by
  rw [splitOnL, List.length_cons, splitOnFuel]
  have hguard : ¬(sep ≠ [] ∧ sep.isPrefixOf (c :: t)) := by
    intro hc; rw [hpre] at hc; exact Bool.noConfusion hc.2
  rw [if_neg hguard]
  rfl

/-- If the separator does not occur in `s`, splitting leaves it whole. -/
theorem splitOnL_of_not_contains {sep s : Str}
    (h : containsL s sep = false) : splitOnL sep s = [s] := by
  induction s with
  | nil => exact splitOnL_nil sep
  | cons c t ih =>
    rw [splitOnL_cons_noMatch c t (not_isPrefixOf_of_not_containsL h)]
    rw [ih (containsL_of_tail h)]

/-- A prefix occurs as a substring. -/
theorem containsL_of_isPrefixOf {sep x : Str} (h : sep.isPrefixOf x = true) :
    containsL x sep = true := by
  cases x with
  | nil => rw [containsL_nil]; exact h
  | cons c t => rw [containsL_cons, h, Bool.true_or]

/-- A separator with no self-overlap cannot match strictly before the
marked occurrence: it is not a prefix of `x ++ sep ++ y` when it does not
occur in the nonempty list `x`. -/
theorem not_prefix_sandwich {sep : Str} (hso : NoSelfOverlap sep)
    {x y : Str} (hx : containsL x sep = false) (hne : x ≠ []) :
    sep.isPrefixOf (x ++ sep ++ y) = false := by
  by_contra hcon
  have hpre : sep <+: x ++ sep ++ y :=
    List.isPrefixOf_iff_prefix.mp (Bool.of_not_eq_false hcon)
  have heq : sep = (x ++ (sep ++ y)).take sep.length := by
    rw [← List.append_assoc]
    exact List.prefix_iff_eq_take.mp hpre
  by_cases hlen : sep.length ≤ x.length
  · -- then sep is a prefix of x, hence occurs in x: contradiction
    have htx : sep = x.take sep.length := by
      rw [List.take_append_of_le_length hlen] at heq
      exact heq
    have hpfx : x.take sep.length <+: x := List.take_prefix _ _
    rw [← htx] at hpfx
    have hpx : sep.isPrefixOf x = true := List.isPrefixOf_iff_prefix.mpr hpfx
    rw [containsL_of_isPrefixOf hpx] at hx
    exact Bool.noConfusion hx
  · -- then x is a proper nonempty prefix of sep: self-overlap at shift x.length
    push_neg at hlen
    have hk0 : 0 < x.length := List.length_pos.mpr hne
    have hsplit : sep = x ++ (sep ++ y).take (sep.length - x.length) := by
      rw [List.take_append_eq_append_take,
        List.take_of_length_le (Nat.le_of_lt hlen)] at heq
      exact heq
    have hdrop : sep.drop x.length = (sep ++ y).take (sep.length - x.length) := by
      conv_lhs => rw [hsplit]
      exact List.drop_left _ _
    have htk : (sep ++ y).take (sep.length - x.length) =
        sep.take (sep.length - x.length) :=
      List.take_append_of_le_length (Nat.sub_le _ _)
    exact hso x.length hlen hk0 (hdrop.trans htk)

/-- Splitting `x ++ sep ++ y` on a non-self-overlapping separator that
does not occur in `x` cuts exactly at the marked occurrence. -/
theorem splitOnL_sandwich {sep : Str} (hso : NoSelfOverlap sep) (hsep : sep ≠ [])
    {x : Str} (y : Str) (hx : containsL x sep = false) :
    splitOnL sep (x ++ sep ++ y) = x :: splitOnL sep y := by
  induction x with
  | nil =>
    simp only [List.nil_append]
    rw [splitOnL_cut hsep (by simp [hsep]) (by
      rw [List.isPrefixOf_iff_prefix]; exact ⟨y, rfl⟩)]
    rw [List.drop_left]
  | cons c t ih =>
    have hpre : sep.isPrefixOf ((c :: t) ++ sep ++ y) = false :=
      not_prefix_sandwich hso hx (by simp)
    have : (c :: t) ++ sep ++ y = c :: (t ++ sep ++ y) := by simp
    rw [this] at hpre ⊢
    rw [splitOnL_cons_noMatch c _ hpre]
    rw [ih (containsL_of_tail hx)]

/-- `s.head?` is not a whitespace character. -/
def HeadNonWs (s : Str) : Prop :=
  ∀ a, s.head? = some a → wsChar a = false

/-- `s.getLast?` is not a whitespace character. -/
def LastNonWs (s : Str) : Prop :=
  ∀ a, s.getLast? = some a → wsChar a = false

theorem trimL_nil : trimL [] = [] := rfl

/-- A leading whitespace character is dropped by `trim`. -/
theorem trimL_cons_ws {a : Char} (ha : wsChar a = true) (s : Str) :
    trimL (a :: s) = trimL s := by
  unfold trimL
  rw [List.dropWhile_cons, if_pos ha]

/-- A trailing whitespace character is dropped by `trim`. -/
theorem trimL_append_ws {a : Char} (ha : wsChar a = true) (s : Str) :
    trimL (s ++ [a]) = trimL s := by
  unfold trimL
  rw [List.dropWhile_append]
  by_cases h : (s.dropWhile wsChar).isEmpty
  · rw [if_pos h]
    have h1 : s.dropWhile wsChar = [] := by
      cases hd : s.dropWhile wsChar with
      | nil => rfl
      | cons u v => rw [hd] at h; simp [List.isEmpty] at h
    rw [h1]
    simp [List.dropWhile_cons, ha, trimL]
  · rw [if_neg h]
    rw [List.reverse_append]
    simp only [List.reverse_cons, List.reverse_nil, List.nil_append,
      List.singleton_append]
    rw [List.dropWhile_cons, if_pos ha]

/-- `trim` is the identity on a list with non-whitespace ends. -/
theorem trimL_eq_self {s : Str} (h1 : HeadNonWs s) (h2 : LastNonWs s) :
    trimL s = s := by
  unfold trimL
  have hfront : s.dropWhile wsChar = s := by
    cases s with
    | nil => rfl
    | cons a t =>
      rw [List.dropWhile_cons, if_neg (by rw [h1 a rfl]; exact Bool.noConfusion)]
  rw [hfront]
  have hback : s.reverse.dropWhile wsChar = s.reverse := by
    cases hs : s.reverse with
    | nil => rfl
    | cons a t =>
      have : s.getLast? = some a := by
        rw [← List.head?_reverse, hs]; rfl
      rw [List.dropWhile_cons, if_neg (by rw [h2 a this]; exact Bool.noConfusion)]
  rw [hback, List.reverse_reverse]

theorem length_dropWhile_le (p : Char → Bool) (s : Str) :
    (s.dropWhile p).length ≤ s.length :=
  (List.dropWhile_suffix p).length_le

/-- If `trim` fixes `s`, its head is not whitespace. -/
theorem headNonWs_of_trimL_eq {s : Str} (h : trimL s = s) : HeadNonWs s := by
  intro a ha
  by_contra hws
  have hws' : wsChar a = true := Bool.of_not_eq_false hws
  obtain ⟨t, rfl⟩ : ∃ t, s = a :: t := by
    cases s with
    | nil => exact Option.noConfusion ha
    | cons b t => exact ⟨t, by injection ha with h'; rw [h']⟩
  have hlen : (trimL (a :: t)).length ≤ t.length := by
    rw [trimL_cons_ws hws']
    unfold trimL
    calc ((( t.dropWhile wsChar).reverse.dropWhile wsChar)).reverse.length
        = ((t.dropWhile wsChar).reverse.dropWhile wsChar).length := by
          rw [List.length_reverse]
      _ ≤ (t.dropWhile wsChar).reverse.length := length_dropWhile_le _ _
      _ = (t.dropWhile wsChar).length := by rw [List.length_reverse]
      _ ≤ t.length := length_dropWhile_le _ _
  rw [h] at hlen
  simp at hlen

/-- If `trim` fixes `s`, its last element is not whitespace. -/
theorem lastNonWs_of_trimL_eq {s : Str} (h : trimL s = s) : LastNonWs s := by
  intro a ha
  by_contra hws
  have hws' : wsChar a = true := Bool.of_not_eq_false hws
  -- the front `dropWhile` fixes s, since otherwise lengths already shrink
  have hfrontlen : (s.dropWhile wsChar).length = s.length := by
    by_contra hne
    have h1 : (s.dropWhile wsChar).length ≤ s.length := length_dropWhile_le _ _
    have hlen : (trimL s).length ≤ (s.dropWhile wsChar).length := by
      unfold trimL
      calc (((s.dropWhile wsChar).reverse.dropWhile wsChar)).reverse.length
          = ((s.dropWhile wsChar).reverse.dropWhile wsChar).length := by
            rw [List.length_reverse]
        _ ≤ (s.dropWhile wsChar).reverse.length := length_dropWhile_le _ _
        _ = (s.dropWhile wsChar).length := by rw [List.length_reverse]
    rw [h] at hlen
    omega
  have hfront : s.dropWhile wsChar = s :=
    (List.dropWhile_suffix wsChar).eq_of_length hfrontlen
  -- so trim s = reverse (dropWhile ws (reverse s)); the reverse starts with `a`
  obtain ⟨t, ht⟩ : ∃ t, s.reverse = a :: t := by
    cases hs : s.reverse with
    | nil =>
      rw [← List.head?_reverse, hs] at ha
      exact Option.noConfusion ha
    | cons b t =>
      rw [← List.head?_reverse, hs] at ha
      exact ⟨t, by injection ha with h'; rw [h']⟩
  have : (trimL s).length ≤ t.length := by
    unfold trimL
    rw [hfront, ht, List.dropWhile_cons, if_pos hws']
    calc (t.dropWhile wsChar).reverse.length
        = (t.dropWhile wsChar).length := by rw [List.length_reverse]
      _ ≤ t.length := length_dropWhile_le _ _
  rw [h] at this
  have : s.length ≤ t.length := this
  have hrev : s.reverse.length = s.length := List.length_reverse s
  rw [ht] at hrev
  simp at hrev
  omega

/-- Splitting a join on a non-self-overlapping separator recovers the
parts, provided no part contains the separator. -/
theorem splitOnL_joinSep {sep : Str} (hso : NoSelfOverlap sep) (hsep : sep ≠ [])
    {parts : List Str} (hne : parts ≠ [])
    (h : ∀ p ∈ parts, containsL p sep = false) :
    splitOnL sep (joinSep sep parts) = parts := by
  induction parts with
  | nil => cases hne rfl
  | cons p rest ih =>
    cases rest with
    | nil =>
      rw [joinSep]
      exact splitOnL_of_not_contains (h p (by simp))
    | cons q r =>
      rw [joinSep]
      rw [splitOnL_sandwich hso hsep _ (h p (by simp))]
      rw [ih (by simp) (fun u hu => h u (List.mem_cons_of_mem p hu))]

/-! ## `src/core/git.ts`: delimiter protocol and log parsing -/

/-- `const delim1 = 'E2B4D2F3-B7AF-4377-BF0F-D81F4E0723F3'` (field delimiter). -/
def delim1 : Str := "E2B4D2F3-B7AF-4377-BF0F-D81F4E0723F3".data

/-- `const delim2 = '25B7DA41-228B-4679-B2A2-86E328D3C3DE'` (record delimiter). -/
def delim2 : Str := "25B7DA41-228B-4679-B2A2-86E328D3C3DE".data

/-- A parsed commit record.  The source stores `new Date(date)`; the raw
ISO-8601 `%cI` field is carried here instead (date parsing is a library
call whose semantics the claims do not touch). -/
structure GitCommit where
  subject : Str
  date : Str
  hash : Str
  body : Str
deriving DecidableEq, Repr

/-- Errors surfaced by the embedded operations (thrown exceptions /
rejected promises in the source). -/
inductive GitVersionError where
  /-- `readFile` rejection (e.g. ENOENT when the manifest file is absent). -/
  | fsError
  /-- `JSON.parse` exception on non-JSON file content. -/
  | jsonError
  /-- `output.error` from the spawn layer, rethrown by `gitExec`. -/
  | spawnError (msg : String)
  /-- `throw new Error(...)` for an invalid manifest (missing name). -/
  | configError (msg : String)
  /-- `throw new Error('Invalid status code from git output: N')`. -/
  | processExit (msg : String)
  /-- `undefined.trim()`: a `TypeError` from destructuring a short record. -/
  | typeError
deriving DecidableEq, Repr

/-- The regex literal `/\\r?\\n?$/` in `gitExec` (note the doubled
backslashes: each `\\` matches one literal backslash character, so the
pattern is: literal backslash, optional `r`, literal backslash, optional
`n`, end of string).  `.replace(re, '')` removes the greedy, leftmost
match. -/
def stripJsRegexL (s : Str) : Str :=
  if ['\\', 'r', '\\', 'n'].isSuffixOf s then s.take (s.length - 4)
  else if ['\\', 'r', '\\'].isSuffixOf s then s.take (s.length - 3)
  else if ['\\', '\\', 'n'].isSuffixOf s then s.take (s.length - 3)
  else if ['\\', '\\'].isSuffixOf s then s.take (s.length - 2)
  else s

/-- The tail of `gitExec` on success:
`output.stdout.toString().replace(/\\r?\\n?$/, '').trim()`. -/
def gitExecClean (stdout : Str) : Str :=
  trimL (stripJsRegexL stdout)

/-- `endRegex = new RegExp(delim2 + backslash-r? backslash-n? + dollar)`:
inside the template string each doubled backslash denotes the regex
escapes `\r`/`\n`, i.e. one optional carriage return and one optional
line feed after one trailing record delimiter, at end of string.
`.replace(endRegex, '')` strips that trailing match. -/
def stripEndRegexL (s : Str) : Str :=
  if (delim2 ++ ['\r', '\n']).isSuffixOf s then s.take (s.length - (delim2.length + 2))
  else if (delim2 ++ ['\r']).isSuffixOf s then s.take (s.length - (delim2.length + 1))
  else if (delim2 ++ ['\n']).isSuffixOf s then s.take (s.length - (delim2.length + 1))
  else if delim2.isSuffixOf s then s.take (s.length - delim2.length)
  else s

/-- `parseEntry` in `Git.logs`: a non-empty record is destructured as
`[subject, date, hash, body] = entry.split(delim1)` and the fields are
trimmed (`date` is passed to `new Date` untrimmed).  When the split has
fewer than four fields the JavaScript destructuring leaves `hash`/`body`
`undefined` and `.trim()` throws a `TypeError`; extra fields are ignored.
An empty record yields `undefined` (filtered out by the caller). -/
def parseEntry (entry : Str) : Except GitVersionError (Option GitCommit) :=
  if entry.length > 0 then
    match splitOnL delim1 entry with
    | subject :: date :: hash :: body :: _ =>
        .ok (some { subject := trimL subject, date := date,
                    hash := trimL hash, body := trimL body })
    | _ => .error .typeError
  else .ok none

/-- `.map(parseEntry).filter((e): e is GitCommit => !!e)`: records are
parsed left to right (the first exception aborts) and the `undefined`
results of empty records are discarded. -/
def parseEntries : List Str → Except GitVersionError (List GitCommit)
  | [] => .ok []
  | e :: rest => do
    let c? ← parseEntry e
    let cs ← parseEntries rest
    match c? with
    | some c => pure (c :: cs)
    | none => pure cs

/-- The parsing pipeline of `Git.logs` applied to the raw stdout of
`git log --reverse --format=format:%s‹delim1›%cI‹delim1›%H‹delim1›%b‹delim2›`:
`gitExec` post-processing, then `.replace(endRegex, '').split(delim2)`,
then per-record parsing and filtering. -/
def logsParse (stdout : Str) : Except GitVersionError (List GitCommit) :=
  parseEntries (splitOnL delim2 (stripEndRegexL (gitExecClean stdout)))

/-- One record as git renders it under the format flag, without the
record delimiter: subject, date, hash, body joined by `delim1`. -/
def bodyRec (c : GitCommit) : Str :=
  c.subject ++ delim1 ++ c.date ++ delim1 ++ c.hash ++ delim1 ++ c.body

/-- One full record: the four delimited fields followed by `delim2`. -/
def renderCommit (c : GitCommit) : Str :=
  bodyRec c ++ delim2

/-- The whole `git log` output under the two-sentinel format: records
joined by newlines (git separates `--format` entries with a newline). -/
def renderLog (cs : List GitCommit) : Str :=
  joinSep ['\n'] (cs.map renderCommit)

/-- A commit whose fields respect the delimiter protocol: the record
delimiter does not occur in the rendered record, the rendered record
splits on the field delimiter into exactly its four fields (the sentinels
are collision-free for this commit), and the trimmed fields are
trim-invariant.  Bodies may contain newlines and arbitrary other text. -/
def GoodCommit (c : GitCommit) : Prop :=
  containsL (bodyRec c) delim2 = false ∧
  splitOnL delim1 (bodyRec c) = [c.subject, c.date, c.hash, c.body] ∧
  trimL c.subject = c.subject ∧ trimL c.hash = c.hash ∧ trimL c.body = c.body

instance (c : GitCommit) : Decidable (GoodCommit c) := by
  unfold GoodCommit
  infer_instance

/-! ### Helper lemmas about heads, last elements and prefixes -/

theorem headNonWs_append_left {x y : Str}
    (hx : HeadNonWs x) (hy : HeadNonWs y) : HeadNonWs (x ++ y) := by
  cases x with
  | nil => simpa using hy
  | cons c t =>
    intro a ha
    simp only [List.cons_append, List.head?_cons] at ha
    exact hx a (by rw [← ha]; rfl)

theorem getLast?_append_of_ne_nil {x y : Str} (hy : y ≠ []) :
    (x ++ y).getLast? = y.getLast? := by
  rw [List.getLast?_append]
  cases hl : y.getLast? with
  | none => exact absurd (List.getLast?_eq_none_iff.mp hl) hy
  | some a => rfl

theorem getLast?_of_suffix {p s : Str} (h : p <:+ s) (hp : p ≠ []) :
    s.getLast? = p.getLast? := by
  obtain ⟨t, rfl⟩ := h
  exact getLast?_append_of_ne_nil hp

/-- `isPrefixOf` fails when the first characters differ. -/
theorem isPrefixOf_cons_false {pat : Str} {p c : Char} {t : Str}
    (hp : pat.head? = some p) (hne : p ≠ c) :
    pat.isPrefixOf (c :: t) = false := by
  cases pat with
  | nil => exact Option.noConfusion hp
  | cons a pt =>
    have : a = p := by injection hp
    subst this
    simp only [List.isPrefixOf_cons₂]
    simp [hne]

/-- Prepending a character different from the pattern's first character
creates no new occurrence. -/
theorem containsL_cons_of_head?_ne {pat : Str} {p c : Char} {t : Str}
    (hp : pat.head? = some p) (hne : p ≠ c) :
    containsL (c :: t) pat = containsL t pat := by
  rw [containsL_cons, isPrefixOf_cons_false hp hne, Bool.false_or]

/-- Splitting after prepending a character different from the pattern's
first character extends the first chunk. -/
theorem splitOnL_cons_of_head?_ne {sep : Str} {p c : Char} {t : Str}
    (hp : sep.head? = some p) (hne : p ≠ c) :
    splitOnL sep (c :: t) =
      match splitOnL sep t with
      | [] => [[c]]
      | hd :: r => (c :: hd) :: r :=
  splitOnL_cons_noMatch c t (isPrefixOf_cons_false hp hne)

/-! ### The parsing round trip (claim C4) -/

theorem parseEntry_bodyRec {c : GitCommit} (h : GoodCommit c) :
    parseEntry (bodyRec c) = .ok (some c) := by
  have hlen : (bodyRec c).length > 0 := by
    have h1 : delim1 ≠ [] := by decide
    have : 0 < delim1.length := List.length_pos.mpr h1
    unfold bodyRec
    simp only [List.length_append]
    omega
  rw [parseEntry, if_pos hlen, h.2.1]
  show (Except.ok (some (GitCommit.mk (trimL c.subject) c.date (trimL c.hash)
      (trimL c.body))) : Except GitVersionError (Option GitCommit)) = Except.ok (some c)
  rw [h.2.2.1, h.2.2.2.1, h.2.2.2.2]

theorem parseEntry_nl_bodyRec {c : GitCommit} (h : GoodCommit c) :
    parseEntry ('\n' :: bodyRec c) = .ok (some c) := by
  have hlen : ('\n' :: bodyRec c).length > 0 := by simp
  rw [parseEntry, if_pos hlen]
  rw [splitOnL_cons_of_head?_ne (p := 'E') (by decide) (by decide), h.2.1]
  show (Except.ok (some (GitCommit.mk (trimL ('\n' :: c.subject)) c.date (trimL c.hash)
      (trimL c.body))) : Except GitVersionError (Option GitCommit)) = Except.ok (some c)
  rw [trimL_cons_ws (by decide), h.2.2.1, h.2.2.2.1, h.2.2.2.2]

theorem parseEntries_tail {rest : List GitCommit}
    (h : ∀ d ∈ rest, GoodCommit d) :
    parseEntries (rest.map (fun d => '\n' :: bodyRec d)) = .ok rest := by
  induction rest with
  | nil => rfl
  | cons d r ih =>
    simp only [List.map_cons, parseEntries]
    rw [parseEntry_nl_bodyRec (h d (by simp))]
    rw [ih (fun u hu => h u (List.mem_cons_of_mem d hu))]
    rfl

theorem parseEntries_parts {c : GitCommit} {rest : List GitCommit}
    (hc : GoodCommit c) (h : ∀ d ∈ rest, GoodCommit d) :
    parseEntries (bodyRec c :: rest.map (fun d => '\n' :: bodyRec d)) =
      .ok (c :: rest) := by
  rw [parseEntries, parseEntry_bodyRec hc, parseEntries_tail h]
  rfl

theorem joinSep_cons_cons (sep p : Str) (q : Str) (r : List Str) :
    joinSep sep (p :: q :: r) = p ++ sep ++ joinSep sep (q :: r) := by
  rw [joinSep]

theorem joinSep_cons_head (sep : Str) (a : Char) (p : Str) (ps : List Str) :
    joinSep sep ((a :: p) :: ps) = a :: joinSep sep (p :: ps) := by
  cases ps with
  | nil => rw [joinSep, joinSep]
  | cons q r => rw [joinSep_cons_cons, joinSep_cons_cons]; simp

/-- The rendered log of a non-empty commit list decomposes as the
`delim2`-join of the records (first bare, later ones newline-prefixed)
followed by one trailing `delim2`. -/
theorem renderLog_decomp :
    ∀ (rest : List GitCommit) (c : GitCommit),
      renderLog (c :: rest) =
        joinSep delim2 (bodyRec c :: rest.map (fun d => '\n' :: bodyRec d)) ++ delim2 := by
  intro rest
  induction rest with
  | nil =>
    intro c
    rw [renderLog, List.map_cons, List.map_nil, joinSep, List.map_nil, joinSep]
    rw [renderCommit]
  | cons q r ih =>
    intro c
    rw [renderLog, List.map_cons, List.map_cons]
    rw [joinSep_cons_cons]
    have hq : joinSep ['\n'] (renderCommit q :: List.map renderCommit r) =
        renderLog (q :: r) := rfl
    rw [hq, ih q, List.map_cons]
    rw [joinSep_cons_cons, joinSep_cons_head]
    rw [renderCommit]
    simp [List.append_assoc]

/-- `stripJsRegexL` is the identity on a string ending in a line feed
(the regex requires literal backslash characters before the end). -/
theorem stripJsRegexL_of_last_nl {s : Str} (h : s.getLast? = some '\n') :
    stripJsRegexL s = s := by
  rw [stripJsRegexL]
  have k4 : (['\\', 'r', '\\', 'n'] : Str).isSuffixOf s = false := by
    by_contra hc
    have := getLast?_of_suffix (List.isSuffixOf_iff_suffix.mp (Bool.of_not_eq_false hc)) (by decide)
    rw [h] at this
    revert this
    decide
  have k3a : (['\\', 'r', '\\'] : Str).isSuffixOf s = false := by
    by_contra hc
    have := getLast?_of_suffix (List.isSuffixOf_iff_suffix.mp (Bool.of_not_eq_false hc)) (by decide)
    rw [h] at this
    revert this
    decide
  have k3b : (['\\', '\\', 'n'] : Str).isSuffixOf s = false := by
    by_contra hc
    have := getLast?_of_suffix (List.isSuffixOf_iff_suffix.mp (Bool.of_not_eq_false hc)) (by decide)
    rw [h] at this
    revert this
    decide
  have k2 : (['\\', '\\'] : Str).isSuffixOf s = false := by
    by_contra hc
    have := getLast?_of_suffix (List.isSuffixOf_iff_suffix.mp (Bool.of_not_eq_false hc)) (by decide)
    rw [h] at this
    revert this
    decide
  rw [k4, k3a, k3b, k2]
  simp

/-- `stripEndRegexL` removes exactly one trailing record delimiter. -/
theorem stripEndRegexL_append_delim2 (y : Str) :
    stripEndRegexL (y ++ delim2) = y := by
  have hE : (y ++ delim2).getLast? = some 'E' := by
    rw [getLast?_append_of_ne_nil (by decide)]
    decide
  rw [stripEndRegexL]
  have k1 : (delim2 ++ ['\r', '\n']).isSuffixOf (y ++ delim2) = false := by
    by_contra hc
    have := getLast?_of_suffix (List.isSuffixOf_iff_suffix.mp (Bool.of_not_eq_false hc)) (by decide)
    rw [hE] at this
    rw [getLast?_append_of_ne_nil (by decide)] at this
    revert this
    decide
  have k2 : (delim2 ++ ['\r']).isSuffixOf (y ++ delim2) = false := by
    by_contra hc
    have := getLast?_of_suffix (List.isSuffixOf_iff_suffix.mp (Bool.of_not_eq_false hc)) (by decide)
    rw [hE] at this
    rw [getLast?_append_of_ne_nil (by decide)] at this
    revert this
    decide
  have k3 : (delim2 ++ ['\n']).isSuffixOf (y ++ delim2) = false := by
    by_contra hc
    have := getLast?_of_suffix (List.isSuffixOf_iff_suffix.mp (Bool.of_not_eq_false hc)) (by decide)
    rw [hE] at this
    rw [getLast?_append_of_ne_nil (by decide)] at this
    revert this
    decide
  have k4 : delim2.isSuffixOf (y ++ delim2) = true :=
    List.isSuffixOf_iff_suffix.mpr ⟨y, rfl⟩
  rw [k1, k2, k3, k4]
  simp only [if_false, if_true, Bool.false_eq_true]
  have hlen : (y ++ delim2).length - delim2.length = y.length := by
    simp
  rw [hlen, List.take_left]

theorem headNonWs_append_of_ne_nil {x : Str} (y : Str)
    (hx : HeadNonWs x) (hne : x ≠ []) : HeadNonWs (x ++ y) := by
  cases x with
  | nil => cases hne rfl
  | cons c t =>
    intro a ha
    simp only [List.cons_append, List.head?_cons] at ha
    exact hx a (by rw [← ha]; rfl)

theorem append_ne_nil_left {x : Str} (hx : x ≠ []) (y : Str) : x ++ y ≠ [] :=
  fun hc => hx (List.append_eq_nil.mp hc).1

theorem headNonWs_delim1 : HeadNonWs delim1 := by
  intro a ha
  have h' : delim1.head? = some 'E' := by decide
  rw [h'] at ha
  injection ha with hEq
  rw [← hEq]
  decide

theorem bodyRec_ne_nil (c : GitCommit) : bodyRec c ≠ [] := by
  intro hc
  have hlen := congrArg List.length hc
  rw [bodyRec] at hlen
  simp only [List.length_append, List.length_nil] at hlen
  have h1 : 0 < delim1.length := by decide
  omega

theorem headNonWs_bodyRec {c : GitCommit} (hs : trimL c.subject = c.subject) :
    HeadNonWs (bodyRec c) := by
  have h1 : HeadNonWs (c.subject ++ delim1) :=
    headNonWs_append_left (headNonWs_of_trimL_eq hs) headNonWs_delim1
  have hne1 : c.subject ++ delim1 ≠ [] := by
    intro hc
    have := congrArg List.length hc
    simp only [List.length_append, List.length_nil] at this
    have : 0 < delim1.length := by decide
    omega
  rw [bodyRec]
  exact headNonWs_append_of_ne_nil _
    (headNonWs_append_of_ne_nil _
      (headNonWs_append_of_ne_nil _
        (headNonWs_append_of_ne_nil _
          (headNonWs_append_of_ne_nil _ h1 hne1)
          (append_ne_nil_left hne1 _))
        (append_ne_nil_left (append_ne_nil_left hne1 _) _))
      (append_ne_nil_left (append_ne_nil_left (append_ne_nil_left hne1 _) _) _))
    (append_ne_nil_left (append_ne_nil_left (append_ne_nil_left
      (append_ne_nil_left hne1 _) _) _) _)

/-- Claim C4: on any git log output string produced under the
two-sentinel format (records of subject, date, hash, body joined by the
field delimiter and terminated by the record delimiter, entries separated
by newlines, with git's trailing newline), the `Git.logs` pipeline strips
the trailing record delimiter and trailing newline, splits on the record
delimiter, splits each record into its four fields, discards the empty
trailing record, and returns the commits in the order of the
(oldest-first) output — bodies containing newlines or arbitrary
delimiter-free text never corrupt field or record boundaries. -/
theorem C4_logsParse_renderLog {cs : List GitCommit}
    (h : ∀ c ∈ cs, GoodCommit c) :
    logsParse (renderLog cs ++ ['\n']) = .ok cs := by
  cases cs with
  | nil => decide
  | cons c rest =>
    have hc : GoodCommit c := h c (by simp)
    have hrest : ∀ d ∈ rest, GoodCommit d :=
      fun d hd => h d (List.mem_cons_of_mem c hd)
    have hdecomp := renderLog_decomp rest c
    -- gitExec post-processing is the identity here
    have hlast : (renderLog (c :: rest) ++ ['\n']).getLast? = some '\n' := by
      rw [getLast?_append_of_ne_nil (by simp)]
      rfl
    have h1 := stripJsRegexL_of_last_nl hlast
    have h2 : trimL (renderLog (c :: rest) ++ ['\n']) = trimL (renderLog (c :: rest)) :=
      trimL_append_ws (by decide) _
    have hHW : HeadNonWs (renderLog (c :: rest)) := by
      rw [renderLog, List.map_cons]
      have hbody : HeadNonWs (bodyRec c) := headNonWs_bodyRec hc.2.2.1
      have hrc : HeadNonWs (renderCommit c) := by
        rw [renderCommit]
        exact headNonWs_append_of_ne_nil _ hbody (bodyRec_ne_nil c)
      have hrcne : renderCommit c ≠ [] := by
        rw [renderCommit]
        intro hx
        have := congrArg List.length hx
        simp only [List.length_append, List.length_nil] at this
        have : 0 < delim2.length := by decide
        omega
      cases rest with
      | nil => rw [List.map_nil, joinSep]; exact hrc
      | cons q r =>
        rw [List.map_cons, joinSep_cons_cons]
        exact headNonWs_append_of_ne_nil _
          (headNonWs_append_of_ne_nil _ hrc hrcne) (append_ne_nil_left hrcne _)
    have hLW : LastNonWs (renderLog (c :: rest)) := by
      rw [hdecomp]
      intro a ha
      rw [getLast?_append_of_ne_nil (by decide)] at ha
      have h' : delim2.getLast? = some 'E' := by decide
      rw [h'] at ha
      injection ha with hEq
      rw [← hEq]
      decide
    have h3 : trimL (renderLog (c :: rest)) = renderLog (c :: rest) :=
      trimL_eq_self hHW hLW
    have h4 := stripEndRegexL_append_delim2
      (joinSep delim2 (bodyRec c :: rest.map (fun d => '\n' :: bodyRec d)))
    have hparts : ∀ p ∈ bodyRec c :: rest.map (fun d => '\n' :: bodyRec d),
        containsL p delim2 = false := by
      intro p hp
      rcases List.mem_cons.mp hp with hp | hp
      · rw [hp]; exact hc.1
      · obtain ⟨d, hd, rfl⟩ := List.mem_map.mp hp
        rw [containsL_cons_of_head?_ne (p := '2') (by decide) (by decide)]
        exact (hrest d hd).1
    have h5 := splitOnL_joinSep (by decide) (by decide) (by simp) hparts
    have h6 := parseEntries_parts hc hrest
    rw [logsParse, gitExecClean, h1, h2, h3, hdecomp, h4, h5, h6]

/-! ## `src/plugins/embedded/gradle/gradle-project.ts`: the gradle plugin -/

/-- `const GRADLE_MANIFEST_NAME = 'build.gradle'`. -/
def GRADLE_MANIFEST_NAME : String := "build.gradle"

/-- `join(folder, name)` from `path` (POSIX join; normalisation of `.` or
duplicate separators is irrelevant here because paths are only compared
for equality against themselves). -/
def joinPath (folder name : String) : String := folder ++ "/" ++ name

/-- The JSON object shape obtained from `JSON.parse` of a manifest file,
restricted to the fields the typanion schema `isGradleBuildFile` talks
about: `version?: string`, `name?: string (required by the schema)`,
`private?: boolean`, `workspaces?: string[]`.  A `none` field is an
absent key. -/
structure RawManifest where
  version : Option String
  name : Option String
  «private» : Option Bool
  workspaces : Option (List String)
deriving DecidableEq, Repr

/-- `isGradleBuildFile = t.isPartial({version: isOptional(isString), name:
isString, private: isOptional(isBoolean), workspaces:
isOptional(isArray(isString))})`: on the typed `RawManifest` shape the
only constraint left is that the required `name` key is present. -/
def isGradleBuildFile (raw : RawManifest) : Bool :=
  raw.name.isSome

/-- A validated manifest (`GradleManifest = t.InferType<...>`): `name` is
known to be a string. -/
structure GradleManifest where
  version : Option String
  name : String
  «private» : Option Bool
  workspaces : Option (List String)
deriving DecidableEq, Repr

/-- `GradleManifestContent {manifest, eofInEnd}`. -/
structure GradleManifestContent where
  manifest : GradleManifest
  eofInEnd : Bool
deriving DecidableEq, Repr

/-- The state of one file slot on disk, as seen through
`readFile` + `JSON.parse`: the file may be absent (`readFile` rejects),
present but not valid JSON (`JSON.parse` throws), or present with a
parsed object of the base shape and a recorded trailing-newline bit
(`stringContent.endsWith('\n')`). -/
inductive GradleFile where
  | absent
  | notJson
  | json (raw : RawManifest) (eofNewline : Bool)
deriving DecidableEq, Repr

/-- A filesystem: what each path holds. -/
abbrev GradleFs := String → GradleFile

/-- `loadGradleBuildFile(folder)`: read `join(folder, 'build.gradle')`
(a missing file rejects), `JSON.parse` it (invalid JSON throws), then
return `{eofInEnd, manifest}` when `isGradleBuildFile` accepts the
content and `null` otherwise. -/
def loadGradleBuildFile (fs : GradleFs) (folder : String) :
    Except GitVersionError (Option GradleManifestContent) :=
  match fs (joinPath folder GRADLE_MANIFEST_NAME) with
  | .absent => .error .fsError
  | .notJson => .error .jsonError
  | .json raw eof =>
    match raw.name with
    | some n =>
        .ok (some { manifest := { version := raw.version, name := n,
                                  «private» := raw.«private»,
                                  workspaces := raw.workspaces },
                    eofInEnd := eof })
    | none => .ok none

/-- A JSON string literal (none of the modelled values contains a
character that `JSON.stringify` would escape). -/
def jsonQuote (s : String) : String := "\"" ++ s ++ "\""

/-- `JSON.stringify` of a string array nested one level deep inside an
object serialised with indent 2. -/
def jsonArray2 : List String → String
  | [] => "[]"
  | w :: ws =>
      "[\n    " ++ String.intercalate ",\n    " ((w :: ws).map jsonQuote) ++ "\n  ]"

/-- The `key: value` members a manifest serialises to (absent optional
keys are omitted). -/
def jsonFields (m : GradleManifest) : List String :=
  (match m.version with
   | some v => ["\"version\": " ++ jsonQuote v]
   | none => []) ++
  ["\"name\": " ++ jsonQuote m.name] ++
  (match m.«private» with
   | some b => ["\"private\": " ++ (if b then "true" else "false")]
   | none => []) ++
  (match m.workspaces with
   | some ws => ["\"workspaces\": " ++ jsonArray2 ws]
   | none => [])

/-- `JSON.stringify(manifest, null, 2)`: two-space-indented JSON with the
manifest's keys (JavaScript emits keys in insertion order, which this
fixed field order realises). -/
def jsonStringify2 (m : GradleManifest) : String :=
  "\x7b\n  " ++ String.intercalate ",\n  " (jsonFields m) ++ "\n\x7d"

/-- The text written by `persistGradleBuildFile`:
`JSON.stringify(manifestContent.manifest, null, 2)` plus a final newline
when the loaded file had one. -/
def persistString (mc : GradleManifestContent) : String :=
  jsonStringify2 mc.manifest ++ (if mc.eofInEnd then "\n" else "")

/-- `persistGradleBuildFile(folder, manifestContent)`: the written path
and the written text. -/
def persistGradleBuildFile (folder : String) (mc : GradleManifestContent) :
    String × String :=
  (joinPath folder GRADLE_MANIFEST_NAME, persistString mc)

/-- `stringContent.endsWith('\n')`, the check `loadGradleBuildFile` uses
to record `eofInEnd`. -/
def strEndsWithNL (s : String) : Bool :=
  s.data.getLast? == some '\n'

/-- The raw JSON object a serialised manifest denotes: `JSON.parse` of
`JSON.stringify(m, ...)` recovers exactly the object's fields. -/
def rawOfManifest (m : GradleManifest) : RawManifest :=
  { version := m.version, name := some m.name,
    «private» := m.«private», workspaces := m.workspaces }

/-- The file-slot state after `persistGradleBuildFile` writes `mc`:
parsing the written text recovers the serialised manifest
(stringify/parse round trip), and the trailing-newline bit is read off
the written text itself. -/
def persistedFile (mc : GradleManifestContent) : GradleFile :=
  .json (rawOfManifest mc.manifest) (strEndsWithNL (persistString mc))

/-- The recognised configuration options (`core/configuration` is outside
the gradle plugin; only the two options the plugin reads are modelled). -/
structure GitversionOptions where
  independentVersioning : Bool
  versionTagPrefix : String
deriving DecidableEq, Repr

/-- `IConfiguration`, as consumed via `this.config.options`. -/
structure IConfiguration where
  options : GitversionOptions
deriving DecidableEq, Repr

/-- A `GradleWorkspace` record: `relativeCwd` and the loaded
`manifestContent`.  The back-reference `_project` is carried separately
(see `GradleProject`): the workspace record itself holds only the data
the accessors read. -/
structure GradleWorkspace where
  relativeCwd : String
  manifestContent : GradleManifestContent
deriving DecidableEq, Repr

/-- `get manifest()`. -/
def GradleWorkspace.manifest (w : GradleWorkspace) : GradleManifest :=
  w.manifestContent.manifest

/-- `get packageName() { return this.manifest.name; }`. -/
def GradleWorkspace.packageName (w : GradleWorkspace) : String :=
  w.manifest.name

/-- `get private() { return this.manifest.private ?? false; }`. -/
def GradleWorkspace.isPrivate (w : GradleWorkspace) : Bool :=
  w.manifest.«private».getD false

/-- `get cwd() { return join(this.project.cwd, this.relativeCwd); }`. -/
def GradleWorkspace.cwd (projectCwd : String) (w : GradleWorkspace) : String :=
  joinPath projectCwd w.relativeCwd

/-- `get tagPrefix()`: `versionTagPrefix + packageName + '@'` under
independent versioning, the bare `versionTagPrefix` otherwise. -/
def GradleWorkspace.tagPrefix (config : IConfiguration) (w : GradleWorkspace) : String :=
  if config.options.independentVersioning then
    config.options.versionTagPrefix ++ GradleWorkspace.packageName w ++ "@"
  else
    config.options.versionTagPrefix

/-- The `GradleWorkspace` constructor: record the fields after the
`if (!this.manifest.name) throw new Error(...)` guard (an empty string is
falsy in JavaScript, so only an empty `name` can still fail here — a
missing `name` never reaches the constructor, because validation in
`loadGradleBuildFile` already rejected it). -/
def mkGradleWorkspace (relativeCwd : String) (mc : GradleManifestContent) :
    Except GitVersionError GradleWorkspace :=
  if mc.manifest.name = "" then
    .error (.configError ("Invalid manifest. Package at \x27" ++ relativeCwd ++
      "\x27 does not have a name"))
  else
    .ok { relativeCwd := relativeCwd, manifestContent := mc }

/-- `updateVersion(version)`: replace the manifest held in memory by
`{...this.manifest, version}` and persist it to the workspace directory.
Returns the updated workspace record and the `(path, text)` write. -/
def GradleWorkspace.updateVersion (projectCwd : String) (w : GradleWorkspace)
    (version : String) : GradleWorkspace × (String × String) :=
  let newMC : GradleManifestContent :=
    { manifest := { w.manifestContent.manifest with version := some version },
      eofInEnd := w.manifestContent.eofInEnd }
  ({ w with manifestContent := newMC },
   persistGradleBuildFile (GradleWorkspace.cwd projectCwd w) newMC)

/-- A `GradleProject`: the root workspace data plus `_cwd`, `_config` and
the accepted child workspaces.  The TypeScript object is its own root
workspace (it extends `GradleWorkspace` and sets `this._project = this`);
here the root's workspace view is rebuilt by `GradleProject.toWorkspace`. -/
structure GradleProject where
  cwd : String
  config : IConfiguration
  manifestContent : GradleManifestContent
  childWorkspaces : List GradleWorkspace
deriving DecidableEq, Repr

/-- The project seen as a workspace: the super-constructor call
`super(undefined as any, '.', manifestContent)` gives the root relative
path `'.'`. -/
def GradleProject.toWorkspace (p : GradleProject) : GradleWorkspace :=
  { relativeCwd := ".", manifestContent := p.manifestContent }

/-- `get workspaces() { return [this, ...this.childWorkspaces]; }`. -/
def GradleProject.workspaces (p : GradleProject) : List GradleWorkspace :=
  GradleProject.toWorkspace p :: p.childWorkspaces

/-- `get project() { return this; }` on the root. -/
def GradleProject.project (p : GradleProject) : GradleProject := p

/-- The per-candidate work inside `paths.map(async (path) => ...)`: load
the candidate's manifest (a rejected read or parse propagates), return
`undefined` when the load yields `null` or the manifest is explicitly
`private: true`, and otherwise run the `GradleWorkspace` constructor
(whose guard may throw). -/
def loadChildWorkspace (fs : GradleFs) (cwd : String) (path : String) :
    Except GitVersionError (Option GradleWorkspace) :=
  match loadGradleBuildFile fs (joinPath cwd path) with
  | .error e => .error e
  | .ok none => .ok none
  | .ok (some mc) =>
    if mc.manifest.«private» ≠ some true then
      match mkGradleWorkspace path mc with
      | .error e => .error e
      | .ok w => .ok (some w)
    else .ok none

/-- `await Promise.all(workspacePromises)`: the candidate results in
order, the first error propagating. -/
def loadChildWorkspaces (fs : GradleFs) (cwd : String) :
    List String → Except GitVersionError (List (Option GradleWorkspace))
  | [] => .ok []
  | path :: rest =>
    match loadChildWorkspace fs cwd path with
    | .error e => .error e
    | .ok x =>
      match loadChildWorkspaces fs cwd rest with
      | .error e => .error e
      | .ok t => .ok (x :: t)

/-- `GradleProject.initialize(initialize)`: load the root manifest at
`cwd` (a rejected read propagates), return `null` when validation fails,
otherwise construct the project (the root passes through the
`GradleWorkspace` constructor guard), and when the root manifest declares
`workspaces`, expand the glob (`globPaths` is the expansion result) and
load the candidates; the accepted child workspaces are the non-`undefined`
results. -/
def initializeGradle (fs : GradleFs) (cwd : String) (config : IConfiguration)
    (globPaths : List String) :
    Except GitVersionError (Option GradleProject) :=
  match loadGradleBuildFile fs cwd with
  | .error e => .error e
  | .ok none => .ok none
  | .ok (some rootMC) =>
    match mkGradleWorkspace "." rootMC with
    | .error e => .error e
    | .ok _ =>
      match loadChildWorkspaces fs cwd
        (match rootMC.manifest.workspaces with
         | some _ => globPaths
         | none => []) with
      | .error e => .error e
      | .ok results =>
          .ok (some { cwd := cwd, config := config, manifestContent := rootMC,
                      childWorkspaces := results.filterMap id })

/-! ## `src/core/git.ts`: `gitExec` error handling and `gitStatusHash` -/

/-- The result of `crossSpawnAsync('git', args, {cwd})`: a possible spawn
error, the exit code, and the captured output streams. -/
structure ProcOutput where
  error : Option String
  exitCode : Int
  stdout : Str
  stderr : Str
deriving DecidableEq, Repr

/-- `gitExec`: rethrow a spawn error; on a non-zero exit code, print the
captured stderr and stdout with `console.log` and throw
`new Error('Invalid status code from git output: ' + exitCode)`; on
success return the post-processed stdout.  The first component is the
returned/thrown result, the second the `console.log` lines. -/
def gitExec (out : ProcOutput) : Except GitVersionError Str × List Str :=
  match out.error with
  | some e => (.error (.spawnError e), [])
  | none =>
    if out.exitCode = 0 then
      (.ok (gitExecClean out.stdout), [])
    else
      (.error (.processExit ("Invalid status code from git output: " ++
        toString out.exitCode)), [out.stderr, out.stdout])

/-- The filter predicate of `gitStatusHash`:
`l => !(l.includes('package.json') || l.includes('CHANGELOG.md'))`. -/
def keepLine (l : Str) : Bool :=
  !(containsL l ("package.json".data) || containsL l ("CHANGELOG.md".data))

/-- `status.split('\n').filter(keepLine).join('\n')`. -/
def cleanedStatus (status : Str) : Str :=
  joinSep ['\n'] ((splitOnL ['\n'] status).filter keepLine)

/-- `gitStatusHash`: feed the current commit id and the cleaned status
into a SHA-256 hash and return the base64 digest.  Streaming
`hash.update(commit); hash.update(cleanedStatus)` digests the
concatenation of the two chunks; the cryptographic digest itself is a
library call, modelled as an arbitrary function of that concatenation. -/
def gitStatusHash (digest : Str → Str) (commit status : Str) : Str :=
  digest (commit ++ cleanedStatus status)

/-! ## Per-claim theorems -/

/-- A serialised manifest always ends in the closing brace. -/
theorem jsonStringify2_getLast (m : GradleManifest) :
    (jsonStringify2 m).data.getLast? = some '\x7d' := by
  rw [jsonStringify2, String.data_append]
  rw [getLast?_append_of_ne_nil (by decide)]
  rfl

/-- The serialised text ends with a newline exactly when the loaded file
did: `jsonStringify2` output always ends in the closing brace, and
`persistGradleBuildFile` appends a newline exactly when `eofInEnd`. -/
theorem strEndsWithNL_persistString (mc : GradleManifestContent) :
    strEndsWithNL (persistString mc) = mc.eofInEnd := by
  obtain ⟨m, eof⟩ := mc
  cases eof with
  | false =>
    show strEndsWithNL (jsonStringify2 m ++ "") = false
    rw [strEndsWithNL, String.data_append]
    have h0 : ("" : String).data = [] := rfl
    rw [h0, List.append_nil, jsonStringify2_getLast]
    rfl
  | true =>
    show strEndsWithNL (jsonStringify2 m ++ "\n") = true
    rw [strEndsWithNL, String.data_append]
    rw [getLast?_append_of_ne_nil (by decide)]
    rfl

/-- Claim C2 (amended): for every workspace and every new version string,
`updateVersion` followed by reloading the manifest file yields a manifest
identical to the original except for the `version` field, and the original
file's trailing-newline presence is preserved.  (The interior formatting
of the original file is not preserved — see the counterexample — so the
reloaded content is the re-serialised manifest.) -/
theorem C2_updateVersion_roundtrip (projectCwd folder : String)
    (w : GradleWorkspace) (v : String) :
    loadGradleBuildFile
        (fun _ => persistedFile
          ((GradleWorkspace.updateVersion projectCwd w v).1.manifestContent))
        folder
      = .ok (some { manifest := { w.manifestContent.manifest with version := some v },
                    eofInEnd := w.manifestContent.eofInEnd }) := by
  rw [loadGradleBuildFile]
  show (match persistedFile ⟨{ w.manifestContent.manifest with version := some v },
      w.manifestContent.eofInEnd⟩ with
    | .absent => (.error .fsError : Except GitVersionError (Option GradleManifestContent))
    | .notJson => .error .jsonError
    | .json raw eof =>
      match raw.name with
      | some n =>
          .ok (some { manifest := { version := raw.version, name := n,
                                    «private» := raw.«private»,
                                    workspaces := raw.workspaces },
                      eofInEnd := eof })
      | none => .ok none) = _
  rw [persistedFile, strEndsWithNL_persistString]
  rfl

/-- Claim C2 (counterexample): a `build.gradle` whose text is the compact
JSON `{"name":"a","version":"1.0.0"}` with no trailing newline loads with
`eofInEnd = false`; `updateVersion('2.0.0')` then writes the pretty-printed
two-space-indented serialisation, not the original text with only the
version value changed — so the surrounding formatting of the original
file text is not left unchanged. -/
theorem C2_counterexample :
    loadGradleBuildFile (fun _ => .json ⟨some "1.0.0", some "a", none, none⟩ false) "."
        = .ok (some ⟨⟨some "1.0.0", "a", none, none⟩, false⟩) ∧
    (GradleWorkspace.updateVersion "." ⟨".", ⟨⟨some "1.0.0", "a", none, none⟩, false⟩⟩
        "2.0.0").2.2
      ≠ "\x7b\"name\":\"a\",\"version\":\"2.0.0\"\x7d" := by
  constructor
  · decide
  · decide

/-- Claim C3 (amended): `gitStatusHash` digests the current commit id and
the status with the lines containing `package.json` or `CHANGELOG.md`
filtered out, so it is deterministic and returns the same digest for any
two statuses whose kept lines agree — in particular for statuses that
differ only in `package.json`/`CHANGELOG.md` lines.  (The gradle manifest
filename `build.gradle` is *not* excluded — see the counterexample.) -/
theorem C3_statusHash_stable (digest : Str → Str) (commit s1 s2 : Str)
    (h : (splitOnL ['\n'] s1).filter keepLine = (splitOnL ['\n'] s2).filter keepLine) :
    gitStatusHash digest commit s1 = gitStatusHash digest commit s2 := by
  rw [gitStatusHash, gitStatusHash, cleanedStatus, cleanedStatus, h]

/-- Witness for claim C3: two statuses that differ only in a
`package.json` line fingerprint identically. -/
theorem C3_statusHash_stable_witness :
    gitStatusHash (fun s => s) "commit".data (" M a.txt\n M package.json".data)
      = gitStatusHash (fun s => s) "commit".data (" M a.txt".data) :=
  C3_statusHash_stable (fun s => s) "commit".data _ _ (by decide)

/-- Claim C3 (counterexample): a status line naming the gradle manifest
`build.gradle` is not excluded by `gitStatusHash`, so two repository
states whose statuses differ only in such a line produce different hash
inputs (shown with the digest instantiated to the identity), refuting
"for every supported build system's manifest filename". -/
theorem C3_counterexample :
    containsL (" M build.gradle".data) GRADLE_MANIFEST_NAME.data = true ∧
    gitStatusHash (fun s => s) "commit".data (" M build.gradle".data)
      ≠ gitStatusHash (fun s => s) "commit".data [] := by
  constructor
  · decide
  · decide

/-- Claim C10: the status-line exclusion matches by substring anywhere in
the line: any line containing `package.json` or `CHANGELOG.md` anywhere
(also as part of a longer path such as `subpackage.json`) is dropped by
the filter, and any two statuses whose kept lines agree — i.e. that
differ only in such lines — produce the same digest. -/
theorem C10_substring_exclusion (digest : Str → Str) (commit s1 s2 l : Str)
    (hl : containsL l ("package.json".data) = true ∨
          containsL l ("CHANGELOG.md".data) = true)
    (h : (splitOnL ['\n'] s1).filter keepLine = (splitOnL ['\n'] s2).filter keepLine) :
    keepLine l = false ∧
    gitStatusHash digest commit s1 = gitStatusHash digest commit s2 := by
  constructor
  · rw [keepLine]
    rcases hl with hl | hl <;> rw [hl] <;> simp
  · rw [gitStatusHash, gitStatusHash, cleanedStatus, cleanedStatus, h]

/-- Witness for claim C10: the unrelated file `subpackage.json` contains
`package.json` as a substring, is excluded, and cannot change the
fingerprint. -/
theorem C10_substring_exclusion_witness :
    keepLine ("?? src/subpackage.json".data) = false ∧
    gitStatusHash (fun s => s) "commit".data (" M a\n?? subpackage.json".data)
      = gitStatusHash (fun s => s) "commit".data (" M a".data) :=
  C10_substring_exclusion (fun s => s) "commit".data _ _ _
    (Or.inl (by decide)) (by decide)

/-- Claim C5: in a working directory whose `build.gradle` is absent,
`readFile` rejects inside `loadGradleBuildFile` — which has no
try/catch — so `GradleProject.initialize` propagates the filesystem error
instead of returning the `null` (not-applicable) outcome the
specification prescribes. -/
theorem C5_absent_manifest_rejects :
    initializeGradle (fun _ => .absent) "." ⟨⟨false, "v"⟩⟩ []
      = .error .fsError := by decide

/-- Claim C6 (amended): every git invocation that spawns but exits with a
non-zero status fails fatally: `gitExec` throws an `Error` whose message
names the exit status, after printing the captured stderr and stdout to
the console; no result is returned.  The thrown error itself does not
carry the captured streams (see the counterexample). -/
theorem C6_nonzero_exit_fatal (out : ProcOutput) (herr : out.error = none)
    (hexit : out.exitCode ≠ 0) :
    gitExec out =
      (.error (.processExit ("Invalid status code from git output: " ++
        toString out.exitCode)), [out.stderr, out.stdout]) := by
  rw [gitExec, herr]
  simp [hexit]

/-- Witness for claim C6: a concrete failing invocation. -/
theorem C6_nonzero_exit_fatal_witness :
    gitExec ⟨none, 1, "captured stdout".data, "captured stderr".data⟩ =
      (.error (.processExit "Invalid status code from git output: 1"),
       ["captured stderr".data, "captured stdout".data]) := by
  rw [C6_nonzero_exit_fatal ⟨none, 1, "captured stdout".data, "captured stderr".data⟩
    rfl (by decide)]
  decide

/-- Claim C6 (counterexample): two failing invocations with different
captured stdout and stderr surface the *same* error value, so the
surfaced error does not carry the captured output (the source only
`console.log`s it and throws an error naming the exit code). -/
theorem C6_counterexample :
    (gitExec ⟨none, 1, "stdout A".data, "stderr A".data⟩).1 =
      (gitExec ⟨none, 1, "stdout B".data, "stderr B".data⟩).1 ∧
    ("stdout A" : String) ≠ "stdout B" ∧ ("stderr A" : String) ≠ "stderr B" := by
  refine ⟨?_, by decide, by decide⟩
  rfl

/-- Claim C7: `tagPrefix` is the configured `versionTagPrefix` followed by
the workspace's `packageName` and `'@'` when `independentVersioning` is
true, and exactly the configured `versionTagPrefix` when it is false. -/
theorem C7_tagPrefix_modes (config : IConfiguration) (w : GradleWorkspace) :
    (config.options.independentVersioning = true →
      GradleWorkspace.tagPrefix config w =
        config.options.versionTagPrefix ++ GradleWorkspace.packageName w ++ "@") ∧
    (config.options.independentVersioning = false →
      GradleWorkspace.tagPrefix config w = config.options.versionTagPrefix) := by
  constructor <;> intro h <;> rw [GradleWorkspace.tagPrefix, h] <;> simp

/-- Witness for claim C7: both modes on a concrete workspace. -/
theorem C7_tagPrefix_modes_witness :
    GradleWorkspace.tagPrefix ⟨⟨true, "v"⟩⟩ ⟨".", ⟨⟨none, "pkg", none, none⟩, true⟩⟩
        = "vpkg@" ∧
    GradleWorkspace.tagPrefix ⟨⟨false, "v"⟩⟩ ⟨".", ⟨⟨none, "pkg", none, none⟩, true⟩⟩
        = "v" := by
  constructor
  · rw [(C7_tagPrefix_modes ⟨⟨true, "v"⟩⟩ ⟨".", ⟨⟨none, "pkg", none, none⟩, true⟩⟩).1 rfl]
    decide
  · rw [(C7_tagPrefix_modes ⟨⟨false, "v"⟩⟩ ⟨".", ⟨⟨none, "pkg", none, none⟩, true⟩⟩).2 rfl]

/-- Claim C8: the gradle manifest loader reads the file named
`build.gradle` and parses it strictly as JSON — content that is not valid
JSON throws and is never accepted — and the writer re-serialises the
manifest as (two-space-indented) JSON, even though the filename
conventionally implies Groovy/Kotlin build-script syntax. -/
theorem C8_buildGradle_is_json :
    GRADLE_MANIFEST_NAME = "build.gradle" ∧
    (∀ (fs : GradleFs) (folder : String),
      fs (joinPath folder GRADLE_MANIFEST_NAME) = .notJson →
        loadGradleBuildFile fs folder = .error .jsonError) ∧
    (∀ (folder : String) (mc : GradleManifestContent),
      persistGradleBuildFile folder mc =
        (joinPath folder GRADLE_MANIFEST_NAME,
         jsonStringify2 mc.manifest ++ (if mc.eofInEnd then "\n" else ""))) := by
  refine ⟨rfl, ?_, fun folder mc => rfl⟩
  intro fs folder h
  rw [loadGradleBuildFile, h]

/-- Witness for claim C8: a `build.gradle` holding non-JSON content (e.g.
actual Groovy) is rejected with the JSON parse error. -/
theorem C8_buildGradle_is_json_witness :
    loadGradleBuildFile (fun _ => .notJson) "." = .error .jsonError :=
  C8_buildGradle_is_json.2.1 (fun _ => .notJson) "." rfl

/-- Claim C9: a project's `workspaces` collection is always the project
itself (as a workspace, with relative path `'.'`) followed by the accepted
child workspaces, and the project's `project` back-reference is itself. -/
theorem C9_workspaces_structure (fs : GradleFs) (cwd : String)
    (config : IConfiguration) (globPaths : List String) (p : GradleProject)
    (hinit : initializeGradle fs cwd config globPaths = .ok (some p)) :
    GradleProject.workspaces p = GradleProject.toWorkspace p :: p.childWorkspaces ∧
    (GradleProject.workspaces p).head? = some (GradleProject.toWorkspace p) ∧
    GradleProject.project p = p :=
  ⟨rfl, rfl, rfl⟩

/-- Claim C1 (amended): during workspace discovery a child candidate whose
manifest parses but lacks the `name` key fails schema validation inside
`loadGradleBuildFile`, so it is silently excluded from the child-workspace
list and the run succeeds — no error is raised.  Only a candidate whose
manifest validates with an *empty-string* `name` and that is not
explicitly private reaches the constructor guard, which aborts the run
with an error naming the path; when such a manifest is also
`private: true`, the privacy check fires first and it too is silently
excluded — so the failure is not independent of the private flag. -/
theorem C1_no_name_child (fs : GradleFs) (cwd : String) (cfg : IConfiguration)
    (path : String) (rraw craw : RawManifest) (reof ceof : Bool) (rn : String)
    (gl : List String)
    (hroot : fs (joinPath cwd GRADLE_MANIFEST_NAME) = .json rraw reof)
    (hrn : rraw.name = some rn) (hrne : rn ≠ "")
    (hws : rraw.workspaces = some gl)
    (hchild : fs (joinPath (joinPath cwd path) GRADLE_MANIFEST_NAME) = .json craw ceof) :
    (craw.name = none →
      initializeGradle fs cwd cfg [path] =
        .ok (some { cwd := cwd, config := cfg,
                    manifestContent :=
                      ⟨⟨rraw.version, rn, rraw.«private», rraw.workspaces⟩, reof⟩,
                    childWorkspaces := [] })) ∧
    (craw.name = some "" → craw.«private» ≠ some true →
      initializeGradle fs cwd cfg [path] =
        .error (.configError ("Invalid manifest. Package at \x27" ++ path ++
          "\x27 does not have a name"))) ∧
    (craw.name = some "" → craw.«private» = some true →
      initializeGradle fs cwd cfg [path] =
        .ok (some { cwd := cwd, config := cfg,
                    manifestContent :=
                      ⟨⟨rraw.version, rn, rraw.«private», rraw.workspaces⟩, reof⟩,
                    childWorkspaces := [] })) := by
  have hload : loadGradleBuildFile fs cwd =
      .ok (some ⟨⟨rraw.version, rn, rraw.«private», rraw.workspaces⟩, reof⟩) := by
    rw [loadGradleBuildFile, hroot]
    simp only [hrn]
  have hguard : ∀ (v : Option String) (pv : Option Bool) (ws : Option (List String))
      (eof : Bool), mkGradleWorkspace "." ⟨⟨v, rn, pv, ws⟩, eof⟩ =
        .ok ⟨".", ⟨⟨v, rn, pv, ws⟩, eof⟩⟩ := by
    intro v pv ws eof
    rw [mkGradleWorkspace]
    exact if_neg hrne
  refine ⟨?_, ?_, ?_⟩
  · intro h
    have hcl : loadChildWorkspace fs cwd path = .ok none := by
      rw [loadChildWorkspace, loadGradleBuildFile, hchild]
      simp only [h]
    simp only [initializeGradle, hload, hguard, hws, loadChildWorkspaces, hcl,
      List.filterMap_cons, List.filterMap_nil, id_eq]
  · intro h hp
    have hcl : loadChildWorkspace fs cwd path =
        .error (.configError ("Invalid manifest. Package at \x27" ++ path ++
          "\x27 does not have a name")) := by
      rw [loadChildWorkspace, loadGradleBuildFile, hchild]
      simp only [h]
      rw [if_pos hp, mkGradleWorkspace]
      simp
    simp only [initializeGradle, hload, hguard, hws, loadChildWorkspaces, hcl]
  · intro h hp
    have hcl : loadChildWorkspace fs cwd path = .ok none := by
      rw [loadChildWorkspace, loadGradleBuildFile, hchild]
      simp only [h]
      rw [if_neg (fun hh => hh hp)]
    simp only [initializeGradle, hload, hguard, hws, loadChildWorkspaces, hcl,
      List.filterMap_cons, List.filterMap_nil, id_eq]

/-- Witness for claim C1: a concrete discovery run; the child manifest
validates with the empty-string name and is not private, so the run
aborts with the constructor error naming the path. -/
theorem C1_no_name_child_witness :
    initializeGradle
        (fun p =>
          if p = "./build.gradle" then .json ⟨none, some "root", none, some ["pkgs/a"]⟩ true
          else if p = "./pkgs/a/build.gradle" then .json ⟨some "1.0.0", some "", none, none⟩ true
          else .absent)
        "." ⟨⟨false, "v"⟩⟩ ["pkgs/a"] =
      .error (.configError ("Invalid manifest. Package at \x27pkgs/a\x27 does not have a name")) := by
  have h := (C1_no_name_child
    (fun p =>
      if p = "./build.gradle" then .json ⟨none, some "root", none, some ["pkgs/a"]⟩ true
      else if p = "./pkgs/a/build.gradle" then .json ⟨some "1.0.0", some "", none, none⟩ true
      else .absent)
    "." ⟨⟨false, "v"⟩⟩ "pkgs/a" ⟨none, some "root", none, some ["pkgs/a"]⟩
    ⟨some "1.0.0", some "", none, none⟩ true true "root" ["pkgs/a"]
    (by decide) rfl (by decide) rfl (by decide)).2.1 rfl (by decide)
  rw [h]
  decide

/-- Claim C1 (counterexample): a child candidate whose manifest parses as
JSON but has no `packageName` at all is silently excluded — discovery
completes successfully with an empty child-workspace list instead of
aborting with a configuration error. -/
theorem C1_counterexample :
    initializeGradle
        (fun p =>
          if p = "./build.gradle" then .json ⟨none, some "root", none, some ["pkgs/a"]⟩ true
          else if p = "./pkgs/a/build.gradle" then .json ⟨some "1.0.0", none, none, none⟩ true
          else .absent)
        "." ⟨⟨false, "v"⟩⟩ ["pkgs/a"] =
      .ok (some { cwd := ".", config := ⟨⟨false, "v"⟩⟩,
                  manifestContent := ⟨⟨none, "root", none, some ["pkgs/a"]⟩, true⟩,
                  childWorkspaces := [] }) := by decide

set_option maxRecDepth 8000 in
/-- Witness for claim C4: a three-commit log whose middle commit body
contains newlines and whose last is empty-bodied parses back exactly, in
order. -/
theorem C4_logsParse_renderLog_witness :
    logsParse (renderLog
        [⟨"feat: add parser".data, "2024-01-01T10:00:00+01:00".data, "a1b2c3".data,
          "".data⟩,
         ⟨"fix: y".data, "2024-01-02T10:00:00+01:00".data, "d4e5f6".data,
          "body line one\nbody line two\n\nBREAKING CHANGE: z".data⟩,
         ⟨"chore: z".data, "2024-01-03T10:00:00+01:00".data, "abcdef".data,
          "".data⟩] ++ ['\n']) =
      .ok [⟨"feat: add parser".data, "2024-01-01T10:00:00+01:00".data, "a1b2c3".data,
            "".data⟩,
           ⟨"fix: y".data, "2024-01-02T10:00:00+01:00".data, "d4e5f6".data,
            "body line one\nbody line two\n\nBREAKING CHANGE: z".data⟩,
           ⟨"chore: z".data, "2024-01-03T10:00:00+01:00".data, "abcdef".data,
            "".data⟩] :=
  C4_logsParse_renderLog (by decide)

/-- Witness for claim C9: a concrete initialisation with one accepted
child workspace. -/
theorem C9_workspaces_structure_witness :
    GradleProject.workspaces
        { cwd := ".", config := ⟨⟨false, "v"⟩⟩,
          manifestContent := ⟨⟨none, "root", none, some ["pkgs/a"]⟩, true⟩,
          childWorkspaces := [⟨"pkgs/a", ⟨⟨none, "a", none, none⟩, true⟩⟩] } =
      GradleProject.toWorkspace
          { cwd := ".", config := ⟨⟨false, "v"⟩⟩,
            manifestContent := ⟨⟨none, "root", none, some ["pkgs/a"]⟩, true⟩,
            childWorkspaces := [⟨"pkgs/a", ⟨⟨none, "a", none, none⟩, true⟩⟩] } ::
        [⟨"pkgs/a", ⟨⟨none, "a", none, none⟩, true⟩⟩] :=
  (C9_workspaces_structure
    (fun p =>
      if p = "./build.gradle" then .json ⟨none, some "root", none, some ["pkgs/a"]⟩ true
      else if p = "./pkgs/a/build.gradle" then .json ⟨none, some "a", none, none⟩ true
      else .absent)
    "." ⟨⟨false, "v"⟩⟩ ["pkgs/a"] _ (by decide)).1

end Gitversion
